import Mathlib

/-!
Shallow embedding of the JSON-like parser/serializer in `src/main.rs`
(`enum JsonValue` with `parse`, `parse_string`, `parse_number`,
`parse_boolean`, `parse_object`, and the `fmt::Display` serializer).

Rust strings are modelled at the character level as `List Char`; Rust's
byte-indexed slicing `&s[a..b]` is modelled by `sliceOrPanic`, which
returns `none` exactly when Rust would abort with a slice-bounds panic
(both call sites slice at positions `1` and `len - 1`, which for the
inputs appearing in the theorems below are character boundaries, so the
character-level model agrees with the byte-level behaviour there).
A parse outcome is `PResult`: `ok`, `err` (Rust `Err(String)`), or
`panic` (an uncaught Rust panic).
-/

abbrev Str := List Char

/-- Left and right curly-brace characters, kept out of literals. -/
def lbrace : Char := Char.ofNat 123

def rbrace : Char := Char.ofNat 125

/-- Rust `char::is_whitespace`: the Unicode White_Space property. -/
def isRustWhitespace (c : Char) : Bool :=
  c.toNat = 0x09 || c.toNat = 0x0A || c.toNat = 0x0B || c.toNat = 0x0C ||
  c.toNat = 0x0D || c.toNat = 0x20 || c.toNat = 0x85 || c.toNat = 0xA0 ||
  c.toNat = 0x1680 || (0x2000 ≤ c.toNat && c.toNat ≤ 0x200A) ||
  c.toNat = 0x2028 || c.toNat = 0x2029 || c.toNat = 0x202F ||
  c.toNat = 0x205F || c.toNat = 0x3000

/-- Rust `str::trim`: drop leading and trailing whitespace. -/
def trim (l : Str) : Str :=
  ((l.dropWhile isRustWhitespace).reverse.dropWhile isRustWhitespace).reverse

/-- Rust `str::trim_matches(c)`: repeatedly drop `c` from both ends. -/
def trimMatches (c : Char) (l : Str) : Str :=
  ((l.dropWhile (· = c)).reverse.dropWhile (· = c)).reverse

/-- Prepend a character to the first segment of a split result. -/
def consHead (x : Char) : List Str → List Str
  | [] => [[x]]
  | s :: ss => (x :: s) :: ss

/-- Rust `str::split(c)`: split on every occurrence of `c`; the empty
string yields one empty segment. -/
def splitOn (c : Char) : Str → List Str
  | [] => [[]]
  | x :: xs => if x = c then [] :: splitOn c xs else consHead x (splitOn c xs)

/-- Rust `str::splitn(2, c)`: split at the first occurrence of `c` only,
yielding one segment (no occurrence) or two. -/
def splitN2 (c : Char) : Str → List Str
  | [] => [[]]
  | x :: xs => if x = c then [[], xs] else consHead x (splitN2 c xs)

/-- Rust slice `&s[a..b]`: `none` models the out-of-range panic. -/
def sliceOrPanic (s : Str) (a b : Nat) : Option Str :=
  if a ≤ b ∧ b ≤ s.length then some ((s.take b).drop a) else none

/-- Rust `String` comparison (`Ord`): lexicographic order on the
character sequence (UTF-8 byte order coincides with code-point order). -/
def lexLe : Str → Str → Bool
  | [], _ => true
  | _ :: _, [] => false
  | a :: as, b :: bs => if a < b then true else if b < a then false else lexLe as bs

/-- Propositional form of `lexLe`, for the sorting lemmas. -/
def lexLeP (a b : Str) : Prop := lexLe a b = true

instance : DecidableRel lexLeP := fun a b => inferInstanceAs (Decidable (lexLe a b = true))

/-- Modelled from the spec: the value carried by `JsonValue::Number` is a
Rust `f64`. IEEE floats are not embedded; a parsed decimal literal is
kept as its exact rational value (rounding to nearest double, overflow
to infinity and underflow to zero are not modelled), plus the special
values `inf`, `-inf` and `NaN` that Rust's `f64::from_str` accepts. -/
inductive FVal where
  | finite : ℚ → FVal
  | inf : FVal
  | neginf : FVal
  | nan : FVal

mutual
/-- The `JsonValue` enum of the source. -/
inductive JsonValue where
  | String : Str → JsonValue
  | Number : FVal → JsonValue
  | Boolean : Bool → JsonValue
  | Object : Entries → JsonValue
  | Null : JsonValue

/-- The entry collection of `JsonValue::Object`. Rust's
`HashMap<String, JsonValue>` is modelled as an association list whose
order carries no meaning (the only observers are `lookupKey` and the
serializer, which sorts; `insertPair` keeps keys unique exactly as
`HashMap::insert` does). -/
inductive Entries where
  | nil : Entries
  | cons : Str → JsonValue → Entries → Entries
end

/-- Outcome of a Rust call returning `Result<JsonValue, String>`:
`panic` models an uncaught panic (unwinding past the caller). -/
inductive PResult where
  | ok : JsonValue → PResult
  | err : String → PResult
  | panic : PResult

/-- Rust `HashMap::insert`: overwrite the binding of `k` if present,
otherwise add a new binding. -/
def insertPair : Entries → Str → JsonValue → Entries
  | .nil, k, v => .cons k v .nil
  | .cons k' v' rest, k, v =>
    if k' = k then .cons k v rest else .cons k' v' (insertPair rest k v)

/-- Lookup in the association-list model of the `HashMap`. -/
def lookupKey : Entries → Str → Option JsonValue
  | .nil, _ => none
  | .cons k' v' rest, k => if k' = k then some v' else lookupKey rest k

/-- Conversion to an ordinary list of bindings. -/
def entriesToList : Entries → List (Str × JsonValue)
  | .nil => []
  | .cons k v rest => (k, v) :: entriesToList rest

/-- Conversion from an ordinary list of bindings. -/
def entriesOfList : List (Str × JsonValue) → Entries
  | [] => .nil
  | (k, v) :: rest => .cons k v (entriesOfList rest)

/-- `JsonValue::parse_string`: requires a leading and trailing `"` and
returns the slice strictly between them; `&input[1..len-1]` panics when
the input is the single character `"`. -/
def parseString (input : Str) : PResult :=
  if input.head? = some '"' ∧ input.getLast? = some '"' then
    match sliceOrPanic input 1 (input.length - 1) with
    | some inner => .ok (.String inner)
    | none => .panic
  else .err ("Invalid string format")

def digitsToNat (ds : Str) : Nat :=
  ds.foldl (fun a c => 10 * a + (c.toNat - 48)) 0

/-- Modelled from the spec: the "platform's standard decimal
floating-point literal parser" used by `parse_number` is Rust's
`f64::from_str` (not part of this repository). Its accepted grammar:
an optional sign, then either a case-insensitive `inf`/`infinity`/`nan`
or a mantissa (`digits`, `digits.`, `digits.digits` or `.digits`) with
an optional `e`/`E` exponent with optional sign and mandatory digits;
the whole input must be consumed. The numeric value is kept as the
exact rational (see `FVal`). -/
def parseFloat (s : Str) : Option FVal :=
  match s with
  | [] => none
  | _ =>
    let signed : Bool × Str :=
      match s with
      | '+' :: r => (false, r)
      | '-' :: r => (true, r)
      | r => (false, r)
    let neg := signed.1
    let rest := signed.2
    let low := rest.map Char.toLower
    if low = ("inf".toList) ∨ low = ("infinity".toList) then
      some (if neg then .neginf else .inf)
    else if low = ("nan".toList) then some .nan
    else
      let d1 := rest.takeWhile Char.isDigit
      let r1 := rest.dropWhile Char.isDigit
      let withFrac : Str × Str :=
        match r1 with
        | '.' :: r2 => (r2.takeWhile Char.isDigit, r2.dropWhile Char.isDigit)
        | _ => ([], r1)
      let d2 := withFrac.1
      let r3 := withFrac.2
      if d1 = [] ∧ d2 = [] then none
      else
        let expPart : Option Int :=
          match r3 with
          | [] => some 0
          | e :: r4 =>
            if e = 'e' ∨ e = 'E' then
              let esigned : Bool × Str :=
                match r4 with
                | '+' :: r5 => (false, r5)
                | '-' :: r5 => (true, r5)
                | r5 => (false, r5)
              let d3 := esigned.2
              if d3 ≠ [] ∧ d3.all Char.isDigit then
                some (if esigned.1 then -(digitsToNat d3 : Int) else (digitsToNat d3 : Int))
              else none
            else none
        match expPart with
        | none => none
        | some ex =>
          let mant : ℚ := (digitsToNat (d1 ++ d2) : ℚ)
          let q : ℚ := mant * (10 : ℚ) ^ (ex - (d2.length : Int))
          some (.finite (if neg then -q else q))

/-- `JsonValue::parse_number`: defer to the float parser. -/
def parseNumber (input : Str) : PResult :=
  match parseFloat input with
  | some v => .ok (.Number v)
  | none => .err ("Invalid number format")

/-- `JsonValue::parse_boolean`. -/
def parseBoolean (input : Str) : PResult :=
  if input = ("true".toList) then .ok (.Boolean true)
  else if input = ("false".toList) then .ok (.Boolean false)
  else .err ("Invalid boolean format")

/-- The entry loop of `JsonValue::parse_object`, abstracted over the
recursive parser `p`: each comma segment is split at its first `:`,
both parts trimmed; a segment that does not yield exactly two parts is
`Invalid object entry`; otherwise the key has surrounding `"` stripped,
the value is parsed by `p` (an `Err`/panic aborts the loop unchanged),
and the binding is inserted into the map. -/
def parseEntries (p : Str → PResult) : List Str → Entries → PResult
  | [], acc => .ok (.Object acc)
  | seg :: rest, acc =>
    match (splitN2 ':' seg).map trim with
    | [key, value] =>
      match p value with
      | .ok v => parseEntries p rest (insertPair acc (trimMatches '"' key) v)
      | .err e => .err e
      | .panic => .panic
    | _ => .err ("Invalid object entry")

/-- The body of `JsonValue::parse` after the initial `trim`, abstracted
over the recursive parser `p`: dispatch on the first character exactly
as the source's `match input.chars().next()`; the object branch slices
`&input[1..len-1]` (panicking for a lone brace) and runs the entry
loop on the comma-split interior. -/
def parseCore (p : Str → PResult) (input : Str) : PResult :=
  match input with
  | [] => .err ("Empty input")
  | c :: _ =>
    if c = '"' then parseString input
    else if c = lbrace then
      match sliceOrPanic input 1 (input.length - 1) with
      | some inner => parseEntries p (splitOn ',' inner) .nil
      | none => .panic
    else if input = ("true".toList) ∨ input = ("false".toList) then parseBoolean input
    else if input = ("null".toList) then .ok .Null
    else parseNumber input

/-- `JsonValue::parse`, fuelled so that the recursion through object
values is structural on the fuel (the fuel is irrelevant once it
exceeds the input length, see `parseFuel_congr`): trim, then dispatch. -/
def parseFuel (fuel : Nat) : Str → PResult :=
  match fuel with
  | 0 => fun _ => .err ("out of fuel")
  | fuel + 1 => fun input0 => parseCore (parseFuel fuel) (trim input0)

/-- `JsonValue::parse`: `input.length + 1` fuel always suffices. -/
def parse (input : Str) : PResult := parseFuel (input.length + 1) input

def natDigitsAux : Nat → Nat → Str
  | 0, _ => []
  | fuel + 1, n => if n = 0 then [] else natDigitsAux fuel (n / 10) ++ [Nat.digitChar (n % 10)]

def natDigits (n : Nat) : Str := if n = 0 then ['0'] else natDigitsAux n n

def intDigits (i : Int) : Str :=
  if i < 0 then '-' :: natDigits i.natAbs else natDigits i.natAbs

def fracDigits : Nat → Nat → Nat → Str
  | 0, _, _ => []
  | _ + 1, 0, _ => []
  | fuel + 1, r, d => Nat.digitChar (r * 10 / d) :: fracDigits fuel (r * 10 % d) d

/-- Modelled from the spec: the "platform's default decimal rendering"
of an `f64` (Rust's `Display`, not part of this repository).
Integral-valued floats render without a fractional part (the behaviour
the spec pins down); other values render as sign, integer part, `.`,
and the (terminating, since every `f64` is a dyadic rational) decimal
expansion of the fractional part; `inf`/`-inf`/`NaN` as Rust prints
them. -/
def renderNum : FVal → Str
  | .nan => ("NaN".toList)
  | .inf => ("inf".toList)
  | .neginf => '-' :: ("inf".toList)
  | .finite q =>
    if q.den = 1 then intDigits q.num
    else
      (if q.num < 0 then ['-'] else []) ++ natDigits (q.num.natAbs / q.den) ++
        '.' :: fracDigits 1100 (q.num.natAbs % q.den) q.den

mutual
/-- The `fmt::Display` serializer (`JsonValue::to_string`). Object
entries are rendered as `"key":value` strings, and the `Vec<String>`
of rendered entries is sorted (`entries.sort()` in the source; Rust's
stable sort is modelled by insertion sort, which produces the same
result because `lexLe` is a total order) and comma-joined between
braces. -/
def toText : JsonValue → Str
  | .String s => '"' :: s ++ ['"']
  | .Number n => renderNum n
  | .Boolean b => if b then ("true".toList) else ("false".toList)
  | .Null => ("null".toList)
  | .Object m =>
    lbrace :: List.intercalate [','] (List.insertionSort lexLeP (renderedEntries m)) ++ [rbrace]
termination_by structural v => v

/-- The rendered entry strings `format!("\"\x7b\x7d\":\x7b\x7d", k, v)`
of an object, in entry order (before sorting). -/
def renderedEntries : Entries → List Str
  | .nil => []
  | .cons k v rest => ('"' :: k ++ '"' :: ':' :: toText v) :: renderedEntries rest
termination_by structural l => l
end

/-- Modelled from the spec: serialization that orders object entries
"by lexicographic ascending sort of the key strings", used only to
compare the spec's claimed ordering against the source's `toText`. -/
def specKeySortedRender (m : Entries) : Str :=
  lbrace ::
    List.intercalate [','] ((List.insertionSort (fun a b => lexLeP a.1 b.1) (entriesToList m)).map
      (fun kv => '"' :: kv.1 ++ '"' :: ':' :: toText kv.2)) ++
    [rbrace]

instance : DecidableRel (fun (a b : Str × JsonValue) => lexLeP a.1 b.1) :=
  fun a b => inferInstanceAs (Decidable (lexLe a.1 b.1 = true))

example : parse (("\"Hello\"").toList) = .ok (.String ("Hello".toList)) := rfl

example : parse ([lbrace, rbrace]) = .err ("Invalid object entry") := rfl

example : parse ([lbrace]) = .panic := rfl

example : parse (['"']) = .panic := rfl

example : parse (("true".toList)) = .ok (.Boolean true) := rfl

example : parse (("tru".toList)) = .err ("Invalid number format") := rfl

example : parse (("null".toList)) = .ok .Null := rfl

example : parse (("  ".toList)) = .err ("Empty input") := rfl

example : parse (("42".toList)) = .ok (.Number (.finite 42)) := by
  rw [show parse (("42".toList)) = .ok (.Number (.finite (42 * 10 ^ (0 - 0 : Int)))) from rfl]
  norm_num

/-! ### Length bounds used for the fuel-irrelevance argument -/

theorem length_dropWhile_le (p : Char → Bool) (l : List Char) :
    (l.dropWhile p).length ≤ l.length :=
  (List.dropWhile_sublist p).length_le

theorem trim_length_le (l : Str) : (trim l).length ≤ l.length := by
  unfold trim
  calc ((l.dropWhile isRustWhitespace).reverse.dropWhile isRustWhitespace).reverse.length
      = ((l.dropWhile isRustWhitespace).reverse.dropWhile isRustWhitespace).length := by
        simp
    _ ≤ (l.dropWhile isRustWhitespace).reverse.length := length_dropWhile_le _ _
    _ = (l.dropWhile isRustWhitespace).length := by simp
    _ ≤ l.length := length_dropWhile_le _ _

theorem splitOn_length_le (c : Char) (l : Str) : ∀ s ∈ splitOn c l, s.length ≤ l.length := by
  induction l with
  | nil =>
    intro s hs
    rw [show splitOn c [] = [[]] from rfl] at hs
    rw [List.mem_singleton.mp hs]
  | cons x xs ih =>
    intro s hs
    rw [show splitOn c (x :: xs) =
        (if x = c then [] :: splitOn c xs else consHead x (splitOn c xs)) from rfl] at hs
    by_cases hx : x = c
    · rw [if_pos hx] at hs
      rcases List.mem_cons.mp hs with h0 | h0
      · rw [h0]; exact Nat.zero_le _
      · exact Nat.le_trans (ih s h0) (by simp)
    · rw [if_neg hx] at hs
      rcases hE : splitOn c xs with _ | ⟨s0, ss⟩
      · rw [hE] at hs
        rw [show consHead x [] = [[x]] from rfl] at hs
        rw [List.mem_singleton.mp hs]
        simp
      · rw [hE] at hs
        rw [show consHead x (s0 :: ss) = (x :: s0) :: ss from rfl] at hs
        rcases List.mem_cons.mp hs with h0 | h0
        · have hm : s0 ∈ splitOn c xs := by rw [hE]; exact List.mem_cons_self _ _
          have := ih s0 hm
          rw [h0]
          simp only [List.length_cons]
          omega
        · have hm : s ∈ splitOn c xs := by rw [hE]; exact List.mem_cons_of_mem _ h0
          exact Nat.le_trans (ih s hm) (by simp)

theorem splitN2_pair_length (c : Char) (l : Str) :
    ∀ a b, splitN2 c l = [a, b] → a.length + 1 + b.length = l.length := by
  induction l with
  | nil =>
    intro a b h
    rw [show splitN2 c [] = [[]] from rfl] at h
    exact absurd h (by simp)
  | cons x xs ih =>
    intro a b h
    rw [show splitN2 c (x :: xs) =
        (if x = c then [[], xs] else consHead x (splitN2 c xs)) from rfl] at h
    by_cases hx : x = c
    · rw [if_pos hx] at h
      injection h with h1 h2
      injection h2 with h2 _
      subst h1; subst h2
      simp only [List.length_nil, List.length_cons]
      omega
    · rw [if_neg hx] at h
      rcases hE : splitN2 c xs with _ | ⟨s0, ss⟩
      · rw [hE] at h
        rw [show consHead x [] = [[x]] from rfl] at h
        exact absurd h (by simp)
      · rw [hE] at h
        rw [show consHead x (s0 :: ss) = (x :: s0) :: ss from rfl] at h
        injection h with h1 h2
        subst h1
        have hE2 : splitN2 c xs = [s0, b] := by rw [hE, h2]
        have := ih s0 b hE2
        simp only [List.length_cons]
        omega

theorem map_trim_pair {l : List Str} {key value : Str} (h : l.map trim = [key, value]) :
    ∃ a b, l = [a, b] ∧ trim a = key ∧ trim b = value := by
  rcases l with _ | ⟨a, _ | ⟨b, _ | ⟨x, t3⟩⟩⟩
  · simp at h
  · simp at h
  · simp at h
    exact ⟨a, b, rfl, h.1, h.2⟩
  · simp at h

/-! ### Fuel irrelevance -/

theorem parseEntries_congr (p q : Str → PResult) (segs : List Str) (acc : Entries)
    (h : ∀ seg ∈ segs, ∀ key value,
      (splitN2 ':' seg).map trim = [key, value] → p value = q value) :
    parseEntries p segs acc = parseEntries q segs acc := by
  induction segs generalizing acc with
  | nil => rfl
  | cons seg rest ih =>
    have hrest : ∀ s ∈ rest, ∀ key value,
        (splitN2 ':' s).map trim = [key, value] → p value = q value :=
      fun s hs => h s (List.mem_cons_of_mem _ hs)
    rcases hE : (splitN2 ':' seg).map trim with _ | ⟨key, _ | ⟨value, _ | ⟨x, tl⟩⟩⟩
    · simp [parseEntries, hE]
    · simp [parseEntries, hE]
    · have hpq := h seg (List.mem_cons_self _ _) key value hE
      simp only [parseEntries, hE, hpq]
      cases q value with
      | ok v => exact ih _ hrest
      | err e => rfl
      | panic => rfl
    · simp [parseEntries, hE]

theorem sliceOrPanic_length {t inner : Str} {b : Nat}
    (hS : sliceOrPanic t 1 b = some inner) : inner.length + 1 = b ∧ 1 ≤ b ∧ b ≤ t.length := by
  unfold sliceOrPanic at hS
  by_cases hcond : 1 ≤ b ∧ b ≤ t.length
  · rw [if_pos hcond] at hS
    injection hS with hS
    subst hS
    rw [List.length_drop, List.length_take, min_eq_left hcond.2]
    exact ⟨by omega, hcond.1, hcond.2⟩
  · rw [if_neg hcond] at hS
    exact absurd hS (by simp)

theorem parseCore_congr (p q : Str → PResult) (t : Str)
    (h : ∀ s : Str, s.length + 3 ≤ t.length → p s = q s) :
    parseCore p t = parseCore q t := by
  cases t with
  | nil => rfl
  | cons c rest =>
    have hunf : ∀ r : Str → PResult, parseCore r (c :: rest) =
        (if c = '"' then parseString (c :: rest)
         else if c = lbrace then
           match sliceOrPanic (c :: rest) 1 ((c :: rest).length - 1) with
           | some inner => parseEntries r (splitOn ',' inner) .nil
           | none => .panic
         else if (c :: rest) = ("true".toList) ∨ (c :: rest) = ("false".toList) then
           parseBoolean (c :: rest)
         else if (c :: rest) = ("null".toList) then .ok .Null
         else parseNumber (c :: rest)) := fun r => rfl
    rw [hunf p, hunf q]
    by_cases h1 : c = '"'
    · rw [if_pos h1, if_pos h1]
    · rw [if_neg h1, if_neg h1]
      by_cases h2 : c = lbrace
      · rw [if_pos h2, if_pos h2]
        rcases hS : sliceOrPanic (c :: rest) 1 ((c :: rest).length - 1) with _ | inner
        · rfl
        · show parseEntries p (splitOn ',' inner) .nil = parseEntries q (splitOn ',' inner) .nil
          obtain ⟨hmin, hge, hle⟩ := sliceOrPanic_length hS
          have hinner : inner.length + 2 = (c :: rest).length := by
            simp only [List.length_cons] at hge hmin hle ⊢
            omega
          apply parseEntries_congr
          intro seg hseg key value hsp
          obtain ⟨a, b, hab, _, hb⟩ := map_trim_pair hsp
          have hseglen := splitOn_length_le ',' inner seg hseg
          have hlen := splitN2_pair_length ':' seg a b hab
          have hv : value.length ≤ b.length := hb ▸ trim_length_le b
          apply h
          omega
      · rw [if_neg h2, if_neg h2]

theorem parseFuel_congr : ∀ f g (l : Str), l.length < f → l.length < g →
    parseFuel f l = parseFuel g l := by
  intro f
  induction f with
  | zero =>
    intro g l hf
    exact absurd hf (Nat.not_lt_zero _)
  | succ f ih =>
    intro g l hf hg
    cases g with
    | zero => exact absurd hg (Nat.not_lt_zero _)
    | succ g =>
      show parseCore (parseFuel f) (trim l) = parseCore (parseFuel g) (trim l)
      apply parseCore_congr
      intro s hs
      have ht := trim_length_le l
      exact ih g s (by omega) (by omega)

theorem parse_eq_parseCore (input : Str) :
    parse input = parseCore (parseFuel input.length) (trim input) := rfl

/-- Any sufficiently fuelled run equals `parse`. -/
theorem parseFuel_eq_parse (f : Nat) (l : Str) (hf : l.length < f) :
    parseFuel f l = parse l :=
  parseFuel_congr f (l.length + 1) l hf (Nat.lt_succ_self _)

/-! ### Trim lemmas -/

theorem trim_eq_nil_of_ws (l : Str) (h : ∀ c ∈ l, isRustWhitespace c = true) :
    trim l = [] := by
  unfold trim
  have h1 : l.dropWhile isRustWhitespace = [] := List.dropWhile_eq_nil_iff.mpr h
  rw [h1]
  rfl

theorem trim_of_ends (a b : Char) (s : Str)
    (ha : isRustWhitespace a = false) (hb : isRustWhitespace b = false) :
    trim (a :: s ++ [b]) = a :: s ++ [b] := by
  unfold trim
  rw [show a :: s ++ [b] = a :: (s ++ [b]) from rfl]
  rw [List.dropWhile_cons, ha]
  simp only [Bool.false_eq_true, if_false]
  rw [show (a :: (s ++ [b])).reverse = b :: (s.reverse ++ [a]) by simp]
  rw [List.dropWhile_cons, hb]
  simp only [Bool.false_eq_true, if_false]
  simp

/-! ### Small helpers on `PResult` -/

theorem err_ne_err {s t : String} (h : s ≠ t) : PResult.err s ≠ PResult.err t :=
  fun he => h (by injection he)

theorem parseEntries_cons (p : Str → PResult) (seg : Str) (rest : List Str) (acc : Entries) :
    parseEntries p (seg :: rest) acc =
      (match (splitN2 ':' seg).map trim with
       | [key, value] =>
         (match p value with
          | .ok v => parseEntries p rest (insertPair acc (trimMatches '"' key) v)
          | .err e => .err e
          | .panic => .panic)
       | _ => .err ("Invalid object entry")) := rfl

/-! ### Claim C10 -/

/-- C10: every input consisting solely of whitespace characters (the
empty input included) is trimmed to the empty string and therefore
fails with the `Empty input` error. -/
theorem c10_whitespace_empty_input (s : Str) (h : ∀ c ∈ s, isRustWhitespace c = true) :
    parse s = .err ("Empty input") := by
  rw [parse_eq_parseCore, trim_eq_nil_of_ws s h]
  rfl

/-- C10 witness: a concrete three-character whitespace input. -/
theorem c10_witness : (∀ c ∈ ([' ', '\t', '\n'] : Str), isRustWhitespace c = true) ∧
    parse [' ', '\t', '\n'] = .err ("Empty input") :=
  ⟨by decide, c10_whitespace_empty_input [' ', '\t', '\n'] (by decide)⟩

/-! ### Claim C2 -/

/-- C2: contrary to the claim, `parse` is not panic-free: the input
consisting of the single character `\x7b` reaches
`&input[1..input.len() - 1]` with the reversed range `1..0` and
panics, and the single character `"` does the same inside
`parse_string`. -/
theorem c2_parse_panics : parse [lbrace] = .panic ∧ parse ['"'] = .panic :=
  ⟨rfl, rfl⟩

/-! ### Claim C4 -/

/-- C4: contrary to the claim, `parse_string` does not merely fail on
an input whose only quote is a single leading quote: on the
one-character input `"` (which both starts and ends with `"`) it
panics on the slice `1..0`; an unterminated longer string does fail
with `Invalid string format`. -/
theorem c4_parse_string_lone_quote :
    parseString ['"'] = .panic ∧
    parseString ('"' :: ("abc".toList)) = .err ("Invalid string format") :=
  ⟨rfl, rfl⟩

/-! ### Claim C1 -/

/-- C1 counterexample: parsing the two-character input `\x7b\x7d` does
not yield an empty object. -/
theorem c1_counterexample : parse [lbrace, rbrace] ≠ .ok (.Object .nil) := by
  intro h
  rw [show parse [lbrace, rbrace] = .err ("Invalid object entry") from rfl] at h
  exact PResult.noConfusion h

/-- C1 (amended): any input that trims to `\x7b\x7d` fails with
`Invalid object entry`: splitting the empty interior on `,` yields one
empty segment, which does not split into a key and a value. -/
theorem c1_empty_object_rejected (input : Str) (h : trim input = [lbrace, rbrace]) :
    parse input = .err ("Invalid object entry") := by
  rw [parse_eq_parseCore, h]
  rfl

/-- C1 witness: the amended claim applied to the literal `\x7b\x7d`. -/
theorem c1_witness : trim [lbrace, rbrace] = [lbrace, rbrace] ∧
    parse [lbrace, rbrace] = .err ("Invalid object entry") :=
  ⟨rfl, c1_empty_object_rejected [lbrace, rbrace] rfl⟩

/-! ### Claim C8 -/

theorem parseCore_cons (p : Str → PResult) (c : Char) (rest : Str) :
    parseCore p (c :: rest) =
      (if c = '"' then parseString (c :: rest)
       else if c = lbrace then
         (match sliceOrPanic (c :: rest) 1 ((c :: rest).length - 1) with
          | some inner => parseEntries p (splitOn ',' inner) .nil
          | none => .panic)
       else if (c :: rest) = ("true".toList) ∨ (c :: rest) = ("false".toList) then
         parseBoolean (c :: rest)
       else if (c :: rest) = ("null".toList) then .ok .Null
       else parseNumber (c :: rest)) := rfl

theorem parseString_ne_boolErr (t : Str) :
    parseString t ≠ .err ("Invalid boolean format") := by
  unfold parseString
  by_cases h : t.head? = some '"' ∧ t.getLast? = some '"'
  · rw [if_pos h]
    rcases hS : sliceOrPanic t 1 (t.length - 1) with _ | inner
    · exact fun hc => PResult.noConfusion hc
    · exact fun hc => PResult.noConfusion hc
  · rw [if_neg h]
    exact err_ne_err (by decide)

theorem parseNumber_ne_boolErr (t : Str) :
    parseNumber t ≠ .err ("Invalid boolean format") := by
  unfold parseNumber
  rcases hF : parseFloat t with _ | v
  · exact err_ne_err (by decide)
  · exact fun hc => PResult.noConfusion hc

theorem parseEntries_ne_boolErr (p : Str → PResult)
    (hp : ∀ v, p v ≠ .err ("Invalid boolean format")) :
    ∀ segs acc, parseEntries p segs acc ≠ .err ("Invalid boolean format") := by
  intro segs
  induction segs with
  | nil => exact fun acc hc => PResult.noConfusion hc
  | cons seg rest ih =>
    intro acc
    rw [parseEntries_cons]
    rcases hE : (splitN2 ':' seg).map trim with _ | ⟨key, _ | ⟨value, _ | ⟨x, tl⟩⟩⟩
    · exact err_ne_err (by decide)
    · exact err_ne_err (by decide)
    · show (match p value with
            | PResult.ok v => parseEntries p rest (insertPair acc (trimMatches '"' key) v)
            | PResult.err e => PResult.err e
            | PResult.panic => PResult.panic) ≠ PResult.err ("Invalid boolean format")
      rcases hv : p value with v | e | _
      · exact ih _
      · exact err_ne_err (fun hEq => hp value (hEq ▸ hv))
      · exact fun hc => PResult.noConfusion hc
    · exact err_ne_err (by decide)

theorem parseCore_ne_boolErr (p : Str → PResult)
    (hp : ∀ v, p v ≠ .err ("Invalid boolean format")) (t : Str) :
    parseCore p t ≠ .err ("Invalid boolean format") := by
  cases t with
  | nil => exact err_ne_err (by decide)
  | cons c rest =>
    rw [parseCore_cons]
    by_cases h1 : c = '"'
    · rw [if_pos h1]
      exact parseString_ne_boolErr _
    · rw [if_neg h1]
      by_cases h2 : c = lbrace
      · rw [if_pos h2]
        rcases hS : sliceOrPanic (c :: rest) 1 ((c :: rest).length - 1) with _ | inner
        · exact fun hc => PResult.noConfusion hc
        · exact parseEntries_ne_boolErr p hp _ _
      · rw [if_neg h2]
        by_cases h3 : (c :: rest) = ("true".toList) ∨ (c :: rest) = ("false".toList)
        · rw [if_pos h3]
          rcases h3 with h3 | h3 <;> rw [h3]
          · rw [show parseBoolean ("true".toList) = .ok (.Boolean true) from rfl]
            exact fun hc => PResult.noConfusion hc
          · rw [show parseBoolean ("false".toList) = .ok (.Boolean false) from rfl]
            exact fun hc => PResult.noConfusion hc
        · rw [if_neg h3]
          by_cases h4 : (c :: rest) = ("null".toList)
          · rw [if_pos h4]
            exact fun hc => PResult.noConfusion hc
          · rw [if_neg h4]
            exact parseNumber_ne_boolErr _

theorem parseFuel_ne_boolErr : ∀ f (l : Str), parseFuel f l ≠ .err ("Invalid boolean format") := by
  intro f
  induction f with
  | zero =>
    intro l
    exact err_ne_err (by decide)
  | succ f ih =>
    intro l
    exact parseCore_ne_boolErr (parseFuel f) ih (trim l)

/-- C8: for every input, `parse` never returns the `Invalid boolean
format` error: `parse_boolean` is only invoked when the trimmed input
is already exactly `true` or `false`, so its fallthrough failure arm is
unreachable from `parse` (at any recursion depth). -/
theorem c8_no_invalid_boolean_error (input : Str) :
    parse input ≠ .err ("Invalid boolean format") :=
  parseFuel_ne_boolErr (input.length + 1) input

/-! ### Claim C5 -/

theorem parseString_quoted (s : Str) : parseString ('"' :: s ++ ['"']) = .ok (.String s) := by
  unfold parseString
  have hhead : ('"' :: s ++ ['"']).head? = some '"' := rfl
  have hlast : ('"' :: s ++ ['"']).getLast? = some '"' := List.getLast?_concat _
  rw [if_pos ⟨hhead, hlast⟩]
  have hS : sliceOrPanic ('"' :: s ++ ['"']) 1 (('"' :: s ++ ['"']).length - 1) = some s := by
    unfold sliceOrPanic
    have hlen : ('"' :: s ++ ['"']).length = s.length + 2 := by simp
    rw [hlen]
    rw [if_pos (by omega : 1 ≤ s.length + 2 - 1 ∧ s.length + 2 - 1 ≤ s.length + 2)]
    rw [show s.length + 2 - 1 = ('"' :: s).length by simp]
    rw [List.take_left]
    rfl
  rw [hS]

/-- C5: for every character sequence `s` containing no `\"`,
serializing `Text(s)` yields `\"s\"` and parsing that quoted form
yields `Text(s)` back. -/
theorem c5_string_roundtrip (s : Str) (h : '"' ∉ s) :
    toText (.String s) = '"' :: s ++ ['"'] ∧
    parse ('"' :: s ++ ['"']) = .ok (.String s) := by
  refine ⟨by simp [toText], ?_⟩
  rw [parse_eq_parseCore, trim_of_ends '"' '"' s (by decide) (by decide)]
  rw [List.cons_append, parseCore_cons]
  rw [if_pos rfl]
  exact parseString_quoted s

/-- C5 witness: the round trip at the concrete string `abc`. -/
theorem c5_witness : '"' ∉ ("abc".toList) ∧
    (toText (.String ("abc".toList)) = '"' :: ("abc".toList) ++ ['"'] ∧
     parse ('"' :: ("abc".toList) ++ ['"']) = .ok (.String ("abc".toList))) :=
  ⟨by decide, c5_string_roundtrip ("abc".toList) (by decide)⟩

/-! ### Claim C7 -/

theorem value_length_bound (t inner seg a b : Str)
    (hslice : sliceOrPanic t 1 (t.length - 1) = some inner)
    (hmem : seg ∈ splitOn ',' inner)
    (hsp : splitN2 ':' seg = [a, b]) :
    (trim b).length + 3 ≤ t.length := by
  obtain ⟨hmin, hge, hle⟩ := sliceOrPanic_length hslice
  have h1 := splitOn_length_le ',' inner seg hmem
  have h2 := splitN2_pair_length ':' seg a b hsp
  have h3 := trim_length_le b
  omega

theorem parseEntries_prefix_err (p : Str → PResult) :
    ∀ (pre : List Str) (post : List Str) (seg key value : Str) (e : String) (acc : Entries),
    (∀ s ∈ pre, ∃ k v w, (splitN2 ':' s).map trim = [k, v] ∧ p v = .ok w) →
    (splitN2 ':' seg).map trim = [key, value] →
    p value = .err e →
    parseEntries p (pre ++ seg :: post) acc = .err e := by
  intro pre
  induction pre with
  | nil =>
    intro post seg key value e acc _ hseg hfail
    rw [List.nil_append, parseEntries_cons, hseg]
    show (match p value with
          | PResult.ok v => parseEntries p post (insertPair acc (trimMatches '"' key) v)
          | PResult.err e => PResult.err e
          | PResult.panic => PResult.panic) = PResult.err e
    rw [hfail]
  | cons s0 pre0 ih =>
    intro post seg key value e acc hpre hseg hfail
    obtain ⟨k, v, w, hkv, hok⟩ := hpre s0 (List.mem_cons_self _ _)
    rw [List.cons_append, parseEntries_cons, hkv]
    show (match p v with
          | PResult.ok v => parseEntries p (pre0 ++ seg :: post)
              (insertPair acc (trimMatches '"' k) v)
          | PResult.err e => PResult.err e
          | PResult.panic => PResult.panic) = PResult.err e
    rw [hok]
    exact ih post seg key value e _ (fun s hs => hpre s (List.mem_cons_of_mem _ hs)) hseg hfail

/-- C7: while parsing an object, if every comma segment before some
segment parses to a well-formed entry and that segment's value
substring fails with error `e`, then the whole `parse` call returns
exactly `e`, unchanged. -/
theorem c7_inner_error_propagates (input rest0 inner : Str) (pre post : List Str)
    (seg key value : Str) (e : String)
    (hhead : trim input = lbrace :: rest0)
    (hslice : sliceOrPanic (trim input) 1 ((trim input).length - 1) = some inner)
    (hsegs : splitOn ',' inner = pre ++ seg :: post)
    (hpre : ∀ s ∈ pre, ∃ k v w, (splitN2 ':' s).map trim = [k, v] ∧ parse v = .ok w)
    (hseg : (splitN2 ':' seg).map trim = [key, value])
    (hfail : parse value = .err e) :
    parse input = .err e := by
  have hslice0 := hslice
  rw [parse_eq_parseCore]
  rw [hhead] at hslice ⊢
  rw [parseCore_cons]
  rw [if_neg (show ¬lbrace = '"' by decide)]
  rw [if_pos rfl]
  rw [hslice]
  show parseEntries (parseFuel input.length) (splitOn ',' inner) .nil = .err e
  rw [hsegs]
  have htr := trim_length_le input
  apply parseEntries_prefix_err
  · intro s hs
    obtain ⟨k, v, w, hkv, hok⟩ := hpre s hs
    obtain ⟨a, b, hab, hka, hkb⟩ := map_trim_pair hkv
    have hmem : s ∈ splitOn ',' inner := by
      rw [hsegs]
      exact List.mem_append_left _ hs
    have hbound := value_length_bound (trim input) inner s a b hslice0 hmem hab
    refine ⟨k, v, w, hkv, ?_⟩
    rw [parseFuel_eq_parse]
    · exact hok
    · rw [← hkb]
      omega
  · exact hseg
  · obtain ⟨a, b, hab, hka, hkb⟩ := map_trim_pair hseg
    have hmem : seg ∈ splitOn ',' inner := by
      rw [hsegs]
      exact List.mem_append_right _ (List.mem_cons_self _ _)
    have hbound := value_length_bound (trim input) inner seg a b hslice0 hmem hab
    rw [parseFuel_eq_parse]
    · exact hfail
    · rw [← hkb]
      omega

/-- C7 witness: in `\x7b"a":true,"b":tru,"c":null\x7d` the middle
entry's value `tru` fails with the number-format error and the whole
parse returns exactly that error. -/
theorem c7_witness :
    parse (lbrace :: ("\"a\":true,\"b\":tru,\"c\":null".toList) ++ [rbrace]) =
      .err ("Invalid number format") := by
  refine c7_inner_error_propagates
    (lbrace :: ("\"a\":true,\"b\":tru,\"c\":null".toList) ++ [rbrace])
    (("\"a\":true,\"b\":tru,\"c\":null".toList) ++ [rbrace])
    ("\"a\":true,\"b\":tru,\"c\":null".toList)
    [("\"a\":true".toList)] [("\"c\":null".toList)]
    ("\"b\":tru".toList) ("\"b\"".toList) ("tru".toList)
    ("Invalid number format") rfl rfl rfl ?_ rfl rfl
  intro s hs
  rw [List.mem_singleton.mp hs]
  exact ⟨("\"a\"".toList), ("true".toList), .Boolean true, rfl, rfl⟩

/-! ### Claim C9 -/

/-- Well-formedness of one comma segment with respect to a parser `p`:
it splits into a key and a value part and the value parses to `e.2.2`. -/
def entryFits (p : Str → PResult) (seg : Str) (e : Str × Str × JsonValue) : Prop :=
  (splitN2 ':' seg).map trim = [e.1, e.2.1] ∧ p e.2.1 = .ok e.2.2

/-- The map built by a successful entry loop: left fold of
`HashMap::insert` over the parsed entries in order. -/
def buildMap (acc : Entries) (es : List (Str × Str × JsonValue)) : Entries :=
  es.foldl (fun acc e => insertPair acc (trimMatches '"' e.1) e.2.2) acc

theorem parseEntries_all_ok (p : Str → PResult) :
    ∀ (segs : List Str) (es : List (Str × Str × JsonValue)) (acc : Entries),
    List.Forall₂ (entryFits p) segs es →
    parseEntries p segs acc = .ok (.Object (buildMap acc es)) := by
  intro segs
  induction segs with
  | nil =>
    intro es acc h
    cases h
    rfl
  | cons seg rest ih =>
    intro es acc h
    cases h with
    | cons he hrest =>
      obtain ⟨hkv, hok⟩ := he
      rw [parseEntries_cons, hkv]
      show (match p _ with
            | PResult.ok v => parseEntries p rest (insertPair acc (trimMatches '"' _) v)
            | PResult.err e => PResult.err e
            | PResult.panic => PResult.panic) = _
      rw [hok]
      exact ih _ _ hrest

theorem forall2_fits_fuel (t inner : Str) (L : Nat)
    (hslice : sliceOrPanic t 1 (t.length - 1) = some inner) (hL : t.length ≤ L) :
    ∀ (segs : List Str) (es : List (Str × Str × JsonValue)),
    (∀ s ∈ segs, s ∈ splitOn ',' inner) →
    List.Forall₂ (entryFits parse) segs es →
    List.Forall₂ (entryFits (parseFuel L)) segs es := by
  intro segs
  induction segs with
  | nil =>
    intro es _ h
    cases h
    exact List.Forall₂.nil
  | cons s0 segs' ih =>
    intro es hmem h
    cases h with
    | cons he hrest =>
      refine List.Forall₂.cons ?_ (ih _ (fun s hs => hmem s (List.mem_cons_of_mem _ hs)) hrest)
      obtain ⟨hkv, hok⟩ := he
      refine ⟨hkv, ?_⟩
      obtain ⟨a, b, hab, hka, hkb⟩ := map_trim_pair hkv
      have hbound := value_length_bound t inner s0 a b hslice (hmem s0 (List.mem_cons_self _ _)) hab
      rw [parseFuel_eq_parse]
      · exact hok
      · rw [← hkb]
        omega

theorem lookupKey_insertPair_self : ∀ (m : Entries) (k : Str) (v : JsonValue),
    lookupKey (insertPair m k v) k = some v
  | .nil, k, v => by simp [insertPair, lookupKey]
  | .cons k' v' rest, k, v => by
    by_cases h : k' = k
    · simp [insertPair, h, lookupKey]
    · simp [insertPair, h, lookupKey, lookupKey_insertPair_self rest k v]

theorem lookupKey_insertPair_other : ∀ (m : Entries) (k k' : Str) (v : JsonValue),
    k' ≠ k → lookupKey (insertPair m k' v) k = lookupKey m k
  | .nil, k, k', v, h => by simp [insertPair, lookupKey, h]
  | .cons k0 v0 rest, k, k', v, h => by
    by_cases h0 : k0 = k'
    · subst h0
      simp [insertPair, lookupKey, h]
    · simp [insertPair, h0, lookupKey, lookupKey_insertPair_other rest k k' v h]

theorem lookupKey_buildMap_not_mem (K : Str) :
    ∀ (es : List (Str × Str × JsonValue)) (m : Entries),
    (∀ e ∈ es, trimMatches '"' e.1 ≠ K) →
    lookupKey (buildMap m es) K = lookupKey m K := by
  intro es
  induction es with
  | nil => intro m _; rfl
  | cons e es' ih =>
    intro m h
    show lookupKey (buildMap (insertPair m (trimMatches '"' e.1) e.2.2) es') K = _
    rw [ih _ (fun x hx => h x (List.mem_cons_of_mem _ hx))]
    exact lookupKey_insertPair_other m K (trimMatches '"' e.1) e.2.2 (h e (List.mem_cons_self _ _))

theorem lookupKey_buildMap_last (es1 es2 : List (Str × Str × JsonValue))
    (d : Str × Str × JsonValue) (K : Str) (m : Entries)
    (hd : trimMatches '"' d.1 = K)
    (h2 : ∀ e ∈ es2, trimMatches '"' e.1 ≠ K) :
    lookupKey (buildMap m (es1 ++ d :: es2)) K = some d.2.2 := by
  unfold buildMap
  rw [List.foldl_append, List.foldl_cons]
  show lookupKey (buildMap _ es2) K = _
  rw [lookupKey_buildMap_not_mem K es2 _ h2, hd]
  exact lookupKey_insertPair_self _ K d.2.2

/-- C9: an object input whose comma segments are all well-formed
entries, two of which share the same (quote-stripped) key `K` with the
later being the last occurrence of `K`, parses successfully, and the
resulting object maps `K` to the value of that later entry. -/
theorem c9_duplicate_keys_last_wins (input rest0 inner : Str) (segs : List Str)
    (es es1 es2 es3 : List (Str × Str × JsonValue)) (d1 d2 : Str × Str × JsonValue) (K : Str)
    (hhead : trim input = lbrace :: rest0)
    (hslice : sliceOrPanic (trim input) 1 ((trim input).length - 1) = some inner)
    (hsegs : splitOn ',' inner = segs)
    (hall : List.Forall₂ (entryFits parse) segs es)
    (hes : es = es1 ++ d1 :: es2 ++ d2 :: es3)
    (hk1 : trimMatches '"' d1.1 = K)
    (hk2 : trimMatches '"' d2.1 = K)
    (h3 : ∀ e ∈ es3, trimMatches '"' e.1 ≠ K) :
    parse input = .ok (.Object (buildMap .nil es)) ∧
    lookupKey (buildMap .nil es) K = some d2.2.2 := by
  have hslice0 := hslice
  constructor
  · rw [parse_eq_parseCore]
    rw [hhead] at hslice ⊢
    rw [parseCore_cons]
    rw [if_neg (show ¬lbrace = '"' by decide)]
    rw [if_pos rfl]
    rw [hslice]
    show parseEntries (parseFuel input.length) (splitOn ',' inner) .nil = _
    rw [hsegs]
    exact parseEntries_all_ok (parseFuel input.length) segs es .nil
      (forall2_fits_fuel (trim input) inner input.length hslice0 (trim_length_le input)
        segs es (fun s hs => by rw [hsegs]; exact hs) hall)
  · rw [hes]
    exact lookupKey_buildMap_last (es1 ++ d1 :: es2) es3 d2 K .nil hk2 h3

/-- C9 witness: `\x7b"a":"x","a":"y"\x7d` parses to an object whose only
binding for key `a` is the later value `y`. -/
theorem c9_witness :
    parse (lbrace :: ("\"a\":\"x\",\"a\":\"y\"".toList) ++ [rbrace]) =
      .ok (.Object (.cons ['a'] (.String ['y']) .nil)) ∧
    lookupKey (.cons ['a'] (.String ['y']) .nil) ['a'] = some (.String ['y']) := by
  have h := c9_duplicate_keys_last_wins
    (lbrace :: ("\"a\":\"x\",\"a\":\"y\"".toList) ++ [rbrace])
    (("\"a\":\"x\",\"a\":\"y\"".toList) ++ [rbrace])
    ("\"a\":\"x\",\"a\":\"y\"".toList)
    [("\"a\":\"x\"".toList), ("\"a\":\"y\"".toList)]
    [(("\"a\"".toList), ("\"x\"".toList), .String ['x']),
     (("\"a\"".toList), ("\"y\"".toList), .String ['y'])]
    [] [] []
    (("\"a\"".toList), ("\"x\"".toList), .String ['x'])
    (("\"a\"".toList), ("\"y\"".toList), .String ['y'])
    ['a']
    rfl rfl rfl
    (List.Forall₂.cons ⟨rfl, rfl⟩ (List.Forall₂.cons ⟨rfl, rfl⟩ List.Forall₂.nil))
    rfl rfl rfl
    (fun e he => absurd he (List.not_mem_nil e))
  exact h

/-! ### Claim C3 -/

theorem lexLe_total : ∀ a b : Str, lexLe a b = true ∨ lexLe b a = true
  | [], _ => Or.inl rfl
  | _ :: _, [] => Or.inr rfl
  | a :: as, b :: bs => by
    by_cases hab : a < b
    · left
      simp [lexLe, hab]
    · by_cases hba : b < a
      · right
        simp [lexLe, hba]
      · rcases lexLe_total as bs with h | h
        · left
          simp [lexLe, hab, hba, h]
        · right
          simp [lexLe, hab, hba, h]

theorem lexLe_trans : ∀ a b c : Str,
    lexLe a b = true → lexLe b c = true → lexLe a c = true
  | [], _, _, _, _ => rfl
  | _ :: _, [], _, h1, _ => by simp [lexLe] at h1
  | _ :: _, _ :: _, [], _, h2 => by simp [lexLe] at h2
  | a :: as, b :: bs, c :: cs, h1, h2 => by
    simp only [lexLe] at h1 h2 ⊢
    by_cases hab : a < b
    · by_cases hbc : b < c
      · simp [lt_trans hab hbc]
      · by_cases hcb : c < b
        · simp [hbc, hcb] at h2
        · have hbceq : b = c := le_antisymm (le_of_not_lt hcb) (le_of_not_lt hbc)
          subst hbceq
          simp [hab]
    · by_cases hba : b < a
      · simp [hab, hba] at h1
      · have habeq : a = b := le_antisymm (le_of_not_lt hba) (le_of_not_lt hab)
        subst habeq
        simp only [lt_irrefl, if_false] at h1
        by_cases hac : a < c
        · simp [hac]
        · by_cases hca : c < a
          · simp [hac, hca] at h2
          · rw [if_neg hac, if_neg hca] at h2 ⊢
            exact lexLe_trans as bs cs h1 h2

theorem lexLe_antisymm : ∀ a b : Str, lexLe a b = true → lexLe b a = true → a = b
  | [], [], _, _ => rfl
  | [], _ :: _, _, h2 => by simp [lexLe] at h2
  | _ :: _, [], h1, _ => by simp [lexLe] at h1
  | a :: as, b :: bs, h1, h2 => by
    by_cases hab : a < b
    · simp [lexLe, hab, lt_asymm hab] at h2
    · by_cases hba : b < a
      · simp [lexLe, hab, hba] at h1
      · have habeq : a = b := le_antisymm (le_of_not_lt hba) (le_of_not_lt hab)
        subst habeq
        simp only [lexLe, lt_irrefl, if_false] at h1 h2
        rw [lexLe_antisymm as bs h1 h2]

instance : IsTotal Str lexLeP := ⟨lexLe_total⟩

instance : IsTrans Str lexLeP := ⟨lexLe_trans⟩

instance : IsAntisymm Str lexLeP := ⟨lexLe_antisymm⟩

theorem insertionSort_eq_of_perm (l1 l2 : List Str) (h : l1.Perm l2) :
    List.insertionSort lexLeP l1 = List.insertionSort lexLeP l2 :=
  List.eq_of_perm_of_sorted
    ((List.perm_insertionSort _ _).trans (h.trans (List.perm_insertionSort _ _).symm))
    (List.sorted_insertionSort _ _) (List.sorted_insertionSort _ _)

theorem renderedEntries_ofList (l : List (Str × JsonValue)) :
    renderedEntries (entriesOfList l) =
      l.map (fun kv => '"' :: kv.1 ++ '"' :: ':' :: toText kv.2) := by
  induction l with
  | nil => simp [entriesOfList, renderedEntries]
  | cons kv rest ih =>
    cases kv
    simp [entriesOfList, renderedEntries, ih]

/-- The spec's example map (entries listed here in a scrambled order;
by the permutation-invariance part of the claim theorem the order is
irrelevant). -/
def c3ExampleMap : Entries :=
  .cons ("key2".toList) (.Number (.finite 42))
    (.cons ("key4".toList) .Null
      (.cons ("key1".toList) (.String ("value1".toList))
        (.cons ("key3".toList) (.Boolean true) .nil)))

/-- A two-entry map on which rendered-entry order and key order differ:
`"a!":null` sorts before `"a":null` as a rendered string (because
`!` < `"`), while the key sort puts `a` before `a!`. -/
def c3CounterMap : Entries :=
  .cons ("a".toList) .Null (.cons ("a!".toList) .Null .nil)

/-- C3 (amended): object serialization sorts the rendered entry strings
`"key":value` (not the keys themselves), so the output is deterministic
and independent of the order in which the mapping's entries are
iterated; on the spec's example map this coincides with key order and
produces exactly the claimed text. -/
theorem c3_sorted_entry_rendering :
    (∀ (l1 l2 : List (Str × JsonValue)), l1.Perm l2 →
      toText (.Object (entriesOfList l1)) = toText (.Object (entriesOfList l2))) ∧
    toText (.Object c3ExampleMap) =
      lbrace :: ("\"key1\":\"value1\",\"key2\":42,\"key3\":true,\"key4\":null".toList) ++
        [rbrace] := by
  constructor
  · intro l1 l2 h
    simp only [toText]
    rw [renderedEntries_ofList, renderedEntries_ofList]
    rw [insertionSort_eq_of_perm _ _ (h.map _)]
  · simp only [c3ExampleMap, toText, renderedEntries]
    rfl

/-- C3 witness: permutation invariance applied to one concrete swap. -/
theorem c3_witness :
    toText (.Object (entriesOfList [(("b".toList), .Null), (("a".toList), .Null)])) =
    toText (.Object (entriesOfList [(("a".toList), .Null), (("b".toList), .Null)])) :=
  c3_sorted_entry_rendering.1 _ _ (List.Perm.swap _ _ _)

/-- C3 counterexample: on `c3CounterMap` the serializer's output is not
the spec's key-sorted rendering: the code yields
`\x7b"a!":null,"a":null\x7d` but sorting by key yields
`\x7b"a":null,"a!":null\x7d`. -/
theorem c3_counterexample :
    toText (.Object c3CounterMap) ≠ specKeySortedRender c3CounterMap := by
  have htn : toText .Null = ("null".toList) := by simp [toText]
  have h1 : toText (.Object c3CounterMap) =
      lbrace :: ("\"a!\":null,\"a\":null".toList) ++ [rbrace] := by
    simp only [c3CounterMap, toText, renderedEntries]
    rfl
  have h2 : specKeySortedRender c3CounterMap =
      lbrace :: ("\"a\":null,\"a!\":null".toList) ++ [rbrace] := by
    unfold specKeySortedRender c3CounterMap
    rw [show entriesToList
        (Entries.cons ("a".toList) .Null (Entries.cons ("a!".toList) .Null .nil)) =
        [(("a".toList), JsonValue.Null), (("a!".toList), JsonValue.Null)] from rfl]
    rw [show List.insertionSort (fun a b => lexLeP a.1 b.1)
        [(("a".toList), JsonValue.Null), (("a!".toList), JsonValue.Null)] =
        [(("a".toList), JsonValue.Null), (("a!".toList), JsonValue.Null)] from rfl]
    simp only [List.map_cons, List.map_nil]
    rw [htn]
    rfl
  rw [h1, h2]
  decide
